import Mathlib

/-!
Shallow embedding of the recurring-task subsystem of the todo_app
repository (src/script.js, current API-backed revision, together with the
server cascade-delete route).  Dates are naive calendar dates; the JS code
formats them as "YYYY-MM-DD" strings and compares `Date` objects at local
midnight, which for valid calendar dates coincides with lexicographic
comparison of (year, month, day).  We therefore represent a date as the
triple (year, month, day) with month 1..12; `formatDate` is injective on
valid dates, so string equality of formatted dates is equality of triples.
-/

namespace TodoApp

/-- A naive calendar date (year, month 1..12, day 1..31), the value denoted
by a "YYYY-MM-DD" string in the JS source. -/
structure Date where
  year : Nat
  month : Nat
  day : Nat
deriving DecidableEq, Repr

/-- JS `parseDate(a) < parseDate(b)` for valid dates: lexicographic
comparison on (year, month, day), mirroring comparison of `Date` objects
both normalized to local midnight. -/
def Date.lt (a b : Date) : Bool :=
  decide (a.year < b.year ∨ (a.year = b.year ∧
    (a.month < b.month ∨ (a.month = b.month ∧ a.day < b.day))))

/-- Gregorian leap-year rule, as implemented by the JS `Date` object. -/
def isLeapYear (y : Nat) : Bool :=
  (y % 4 == 0 && y % 100 != 0) || y % 400 == 0

/-- `new Date(year, month, 0).getDate()`: the number of days of month `m`
(1..12) of year `y`.  Total function; months outside 1..12 get the
default 31 (the claims only concern real months). -/
def daysInMonth (y m : Nat) : Nat :=
  match m with
  | 2 => if isLeapYear y then 29 else 28
  | 4 => 30
  | 6 => 30
  | 9 => 30
  | 11 => 30
  | _ => 31

/-- Days contributed by the months of year `y` strictly before month `m`. -/
def daysBeforeMonth (y : Nat) : Nat → Nat
  | 0 => 0
  | 1 => 0
  | m + 1 => daysBeforeMonth y m + daysInMonth y (m)

/-- Number of days from 0001-01-01 (day 1) to the given date, proleptic
Gregorian calendar. -/
def rataDie (y m d : Nat) : Nat :=
  365 * (y - 1) + ((y - 1) / 4 - (y - 1) / 100 + (y - 1) / 400)
    + daysBeforeMonth y m + d

/-- JS `new Date(y, m-1, d).getDay()`: 0 = Sunday .. 6 = Saturday.
0001-01-01 (rata die 1) was a Monday, and `rataDie % 7 = 1` there. -/
def dayOfWeek (y m d : Nat) : Nat :=
  rataDie y m d % 7

/-- JS `String.prototype.split(sep)` for a one-character separator,
on the character list of the string: `"" → [""]`, separators at the ends
produce empty fields. -/
def splitOnChar (sep : Char) : List Char → List (List Char)
  | [] => [[]]
  | c :: rest =>
    let r := splitOnChar sep rest
    if c = sep then [] :: r
    else
      match r with
      | [] => [[c]]
      | g :: gs => (c :: g) :: gs

/-- JS `frequency.split('-')`, as a list of strings. -/
def jsSplit (sep : Char) (s : String) : List String :=
  (splitOnChar sep s.data).map String.mk

/-- JS `s.startsWith(pre)`. -/
def jsStartsWith (s pre : String) : Bool :=
  pre.data.isPrefixOf s.data

/-- JS `s.trim()`: strip leading and trailing whitespace. -/
def jsTrim (s : String) : String :=
  String.mk
    (((s.data.dropWhile Char.isWhitespace).reverse.dropWhile
        Char.isWhitespace).reverse)

/-- The days 1..daysInMonth of the month, as dates, in the order the JS
loops `for (let day = 1; day <= daysInMonth; day++)` visit them. -/
def monthDays (y m : Nat) : List Date :=
  (List.range (daysInMonth y m)).map (fun i => ⟨y, m, i + 1⟩)

/-- The `dayMap` object of the weekly branch: `{mon:1, tue:2, wed:3, thu:4,
fri:5, sat:6, sun:0}`; a key outside the map reads as `undefined`, here
`none`. -/
def weeklyDayMap (s : String) : Option Nat :=
  match s with
  | "mon" => some 1
  | "tue" => some 2
  | "wed" => some 3
  | "thu" => some 4
  | "fri" => some 5
  | "sat" => some 6
  | "sun" => some 0
  | _ => none

/-- The weekly filter loop with its target day: `targetDay =
dayMap[frequency.split('-')[1]]` may be `undefined` (`none`), in which
case `date.getDay() === targetDay` never holds and the result is empty. -/
def weeklyDates (y m : Nat) (target? : Option Nat) : List Date :=
  match target? with
  | none => []
  | some target =>
    (monthDays y m).filter (fun d => dayOfWeek y m d.day == target)

/-- The first-Monday / first-Friday scan: `for (day = 1; day <= 7; day++)`,
push the first date whose `getDay()` equals `target`, then `break`; no
match leaves `dates` empty. -/
def firstWeekdayInWindow (y m target : Nat) : List Date :=
  match ((List.range 7).map (· + 1)).find? (fun d => dayOfWeek y m d == target) with
  | some d => [⟨y, m, d⟩]
  | none => []

/-- `getDatesForRecurringTask(task, targetMonth)` (src/script.js
lines 2080-2142), as a function of the only inputs it reads:
`task.frequency` and the (year, month) of `targetMonth`.  The weekly
branch mirrors `dayMap[frequency.split('-')[1]]`: an unmapped suffix makes
`targetDay` undefined, and `getDay() === undefined` never holds, so the
result is empty.  Every other unmatched code falls through to the empty
list. -/
def getDatesForRecurringTask (frequency : String) (y m : Nat) : List Date :=
  if frequency = "everyday" then
    monthDays y m
  else if frequency = "daily" then
    (monthDays y m).filter (fun d =>
      decide (1 ≤ dayOfWeek y m d.day ∧ dayOfWeek y m d.day ≤ 5))
  else if jsStartsWith frequency "weekly-" then
    weeklyDates y m ((jsSplit '-' frequency)[1]?.bind weeklyDayMap)
  else if jsStartsWith frequency "monthly-" then
    if frequency = "monthly-1" then [⟨y, m, 1⟩]
    else if frequency = "monthly-15" then
      if 15 ≤ daysInMonth y m then [⟨y, m, 15⟩] else []
    else if frequency = "monthly-last" then [⟨y, m, daysInMonth y m⟩]
    else if frequency = "monthly-first-mon" then firstWeekdayInWindow y m 1
    else if frequency = "monthly-first-fri" then firstWeekdayInWindow y m 5
    else []
  else []

/-- A concrete task instance, the object literal built by
`generateRecurringTasks` (src/script.js lines 2033-2043).  `generateId()`
(timestamp + randomness) is modelled as a fresh counter value and
`Date.now()` as an abstract clock value `now`. -/
structure TaskInstance where
  id : Nat
  date : Date
  context : String
  title : String
  notes : String
  status : String
  completed : Bool
  priority : Nat
  createdAt : Nat
deriving DecidableEq, Repr

/-- A recurring-task definition as stored in `cachedRecurringTasks`.
`generatedDates` holds the already-materialized dates (the JS strings,
represented as date triples). -/
structure RecurringTask where
  id : Nat
  title : String
  context : String
  status : String
  frequency : String
  active : Bool
  generatedDates : List Date
deriving DecidableEq, Repr

/-- The `cachedTasks` object: task lists keyed by (date string, context),
`tasks[dateStr][context]`.  Keys are unique in a JS object; lookups find
the first matching entry and updates replace it in place. -/
abbrev TaskStore := List (Date × String × List TaskInstance)

/-- `getTasksForDate(dateStr, context)` (src/script.js lines 136-141):
the stored list for the key, or `[]` when the key is absent. -/
def getTasksForDate (store : TaskStore) (d : Date) (c : String) :
    List TaskInstance :=
  match store.find? (fun e => decide (e.1 = d ∧ e.2.1 = c)) with
  | some e => e.2.2
  | none => []

/-- `saveTasksForDate(dateStr, context, taskList)` (src/script.js
lines 146-151): overwrite the entry for the key, creating it if absent. -/
def saveTasksForDate : TaskStore → Date → String → List TaskInstance →
    TaskStore
  | [], d, c, l => [(d, c, l)]
  | e :: rest, d, c, l =>
    if e.1 = d ∧ e.2.1 = c then (d, c, l) :: rest
    else e :: saveTasksForDate rest d c l

/-- The `priorityOrder` map of `sortTasks` (src/script.js lines 275-297);
unknown statuses sort as 999. -/
def statusPriority (s : String) : Nat :=
  match s with
  | "urgent" => 0
  | "today" => 1
  | "leisure" => 2
  | "improvements" => 3
  | _ => 999

/-- `sortTasks(tasks)`: stable sort ascending by (status priority,
createdAt). -/
def sortTasks (tasks : List TaskInstance) : List TaskInstance :=
  tasks.mergeSort (fun a b =>
    decide (statusPriority a.status < statusPriority b.status ∨
      (statusPriority a.status = statusPriority b.status ∧
        a.createdAt ≤ b.createdAt)))

/-- Month arithmetic of `new Date(y, m0 + offset, 1)` (0-based JS month
`m0 = m - 1`), rolling over year boundaries; returns the 1-based
(year, month). -/
def addMonths (y m k : Nat) : Nat × Nat :=
  (y + (m - 1 + k) / 12, (m - 1 + k) % 12 + 1)

/-- The three (year, month) targets of the reconciliation loop
`for (monthOffset = 0; monthOffset < 3; monthOffset++)`. -/
def monthsWindow (today : Date) : List (Nat × Nat) :=
  [addMonths today.year today.month 0,
   addMonths today.year today.month 1,
   addMonths today.year today.month 2]

/-- The frontend state the reconciler reads and writes: the per-(date,
context) instance cache and the recurring-definition list. -/
structure ReconcileState where
  tasks : TaskStore
  recurring : List RecurringTask
deriving DecidableEq, Repr

/-- Threaded mutable context of one reconciliation run: the evolving
instance cache, the id counter, the transcript of instances constructed
and pushed, and the subset of those whose `apiCreateTask` call failed
(caught and logged by the source, src/script.js lines 2050-2054). -/
structure RunState where
  store : TaskStore
  nextId : Nat
  created : List TaskInstance
  failures : List TaskInstance
deriving DecidableEq, Repr

/-- Everything in a run state except the failure log: the part of a run's
outcome the control flow can observe (it never branches on a creation
outcome). -/
def RunState.core (rs : RunState) : TaskStore × Nat × List TaskInstance :=
  (rs.store, rs.nextId, rs.created)

/-- The body of the candidate-date loop (src/script.js lines 2015-2061)
for one candidate `d`: the past-date guard, the ledger guard, the
by-title duplicate guard, then construction, cache insertion, the
`apiCreateTask` attempt (outcome given by the `createOk` oracle; a
failure is caught, recorded, and does not stop the loop), and the
unconditional ledger append. -/
def processCandidate (createOk : TaskInstance → Bool) (today : Date)
    (now : Nat) (acc : RunState × RecurringTask) (d : Date) :
    RunState × RecurringTask :=
  let rs := acc.1
  let r := acc.2
  if Date.lt d today then acc
  else if d ∈ r.generatedDates then acc
  else
    let tasks := getTasksForDate rs.store d r.context
    if tasks.any (fun t => decide (t.title = r.title)) then acc
    else
      let t : TaskInstance :=
        { id := rs.nextId, date := d, context := r.context,
          title := r.title, notes := "", status := r.status,
          completed := false, priority := 0, createdAt := now }
      let tasks' := sortTasks (tasks ++ [t])
      let store' := saveTasksForDate rs.store d r.context tasks'
      let failures' :=
        if createOk t then rs.failures else rs.failures ++ [t]
      ({ store := store', nextId := rs.nextId + 1,
         created := rs.created ++ [t], failures := failures' },
       { r with generatedDates := r.generatedDates ++ [d] })

/-- One (definition, target month) step: inactive definitions are skipped
(`if (!recurringTask.active) continue`), active ones fold the candidate
loop over the expanded dates. -/
def processDefMonth (createOk : TaskInstance → Bool) (today : Date)
    (now : Nat) (ym : Nat × Nat) (rs : RunState) (r : RecurringTask) :
    RunState × RecurringTask :=
  if r.active then
    (getDatesForRecurringTask r.frequency ym.1 ym.2).foldl
      (processCandidate createOk today now) (rs, r)
  else (rs, r)

/-- The `for (const recurringTask of recurring)` loop for one target
month, threading the run state through the definitions in order and
collecting their updated ledgers. -/
def processMonth (createOk : TaskInstance → Bool) (today : Date)
    (now : Nat) (ym : Nat × Nat) :
    RunState → List RecurringTask → RunState × List RecurringTask
  | rs, [] => (rs, [])
  | rs, r :: rest =>
    let p := processDefMonth createOk today now ym rs r
    let q := processMonth createOk today now ym p.1 rest
    (q.1, p.2 :: q.2)

/-- Outcome of one reconciliation run: the final frontend state, the
instances constructed and pushed during the run, and those among them
whose creation call failed. -/
structure ReconcileResult where
  state : ReconcileState
  created : List TaskInstance
  failures : List TaskInstance
deriving DecidableEq, Repr

/-- `generateRecurringTasks()` (src/script.js lines 2001-2075) with its
ambient inputs made explicit: `today` already normalized to a date-only
value, the `Date.now()` clock `now`, the id counter seed, and the
`createOk` oracle giving each `apiCreateTask` outcome.  The trailing
`apiUpdateRecurringTask`/`saveRecurringTasks` calls persist the list the
run produced and are captured by the returned state. -/
def generateRecurringTasks (createOk : TaskInstance → Bool) (today : Date)
    (now nextId : Nat) (st : ReconcileState) : ReconcileResult :=
  let init : RunState :=
    { store := st.tasks, nextId := nextId, created := [], failures := [] }
  let step := fun (acc : RunState × List RecurringTask) (ym : Nat × Nat) =>
    processMonth createOk today now ym acc.1 acc.2
  let out := (monthsWindow today).foldl step (init, st.recurring)
  { state := { tasks := out.1.store, recurring := out.2 },
    created := out.1.created, failures := out.1.failures }

/-- `toggleRecurringTask(index)` (src/script.js lines 1946-1958): select
the `index`-th definition among those of the current context, find its
global position by id, and flip that definition's `active` flag.  An
out-of-range index makes the JS dereference `undefined` and throw; the
embedding returns the list unchanged there, and the claims only concern
valid indices. -/
def toggleRecurringTask (recurring : List RecurringTask)
    (currentContext : String) (index : Nat) : List RecurringTask :=
  let allTasks := recurring.filter (fun t => decide (t.context = currentContext))
  match allTasks[index]? with
  | none => recurring
  | some task =>
    let globalIndex := recurring.findIdx (fun t => decide (t.id = task.id))
    match recurring[globalIndex]? with
    | none => recurring
    | some r => recurring.set globalIndex { r with active := !r.active }

/-- The same operation on the whole frontend state: the source touches
only `cachedRecurringTasks` (via `getRecurringTasks`/`saveRecurringTasks`)
and re-renders; the instance cache is untouched. -/
def toggleRecurringTaskState (st : ReconcileState)
    (currentContext : String) (index : Nat) : ReconcileState :=
  { st with recurring := toggleRecurringTask st.recurring currentContext index }

/-- The cascade branch of `deleteRecurringTask` (src/script.js
lines 1980-1988): for every date key and every context key of the task
cache, drop the instances whose `title` equals the deleted definition's
title.  The server route `DELETE /api/recurring-tasks/:id?deleteInstances=true`
does the same on the tasks table (`DELETE FROM tasks WHERE user_id = ?
AND title = ?`). -/
def cascadeDeleteInstances (store : TaskStore) (title : String) :
    TaskStore :=
  store.map (fun e =>
    (e.1, e.2.1, e.2.2.filter (fun t => decide (¬ t.title = title))))

/-- `addRecurringTask()` (src/script.js lines 1915-1944) with the form
inputs explicit: trim the title; an empty result returns before touching
any state; otherwise append a fresh definition (active, empty ledger) and
run the reconciler.  Returns the resulting state and the instances the
triggered reconciliation created. -/
def addRecurringTask (createOk : TaskInstance → Bool) (today : Date)
    (now nextId : Nat) (rawTitle status frequency currentContext : String)
    (newDefId : Nat) (st : ReconcileState) :
    ReconcileState × List TaskInstance :=
  let title := jsTrim rawTitle
  if title = "" then (st, [])
  else
    let task : RecurringTask :=
      { id := newDefId, title := title, context := currentContext,
        status := status, frequency := frequency, active := true,
        generatedDates := [] }
    let st1 : ReconcileState :=
      { st with recurring := st.recurring ++ [task] }
    let res := generateRecurringTasks createOk today now nextId st1
    (res.state, res.created)

/-- The duplicate-title guard's reading of the store: some instance
stored under (d, c) has the given title. -/
def hasTitle (store : TaskStore) (d : Date) (c T : String) : Bool :=
  (getTasksForDate store d c).any (fun t => decide (t.title = T))

/-- A candidate date the reconciler would skip: it is in the past, or in
the definition's ledger, or an instance with the definition's title
already sits under (date, context). -/
def candidateDone (today : Date) (store : TaskStore) (r : RecurringTask)
    (d : Date) : Prop :=
  Date.lt d today = true ∨ d ∈ r.generatedDates ∨
    hasTitle store d r.context r.title = true

/-- Store evolution during a run only adds instances, so the title guard
is monotone. -/
def storeMono (s s' : TaskStore) : Prop :=
  ∀ d c T, hasTitle s d c T = true → hasTitle s' d c T = true

/-- How one definition evolves during a run: every field fixed except the
ledger, which only gains dates. -/
def ledgerExt (r r' : RecurringTask) : Prop :=
  r'.id = r.id ∧ r'.title = r.title ∧ r'.context = r.context ∧
  r'.status = r.status ∧ r'.frequency = r.frequency ∧
  r'.active = r.active ∧
  ∀ d, d ∈ r.generatedDates → d ∈ r'.generatedDates

/-- After a run, every candidate of every remaining month of the window is
settled for this definition. -/
def windowDone (today : Date) (store : TaskStore) (ms : List (Nat × Nat))
    (r : RecurringTask) : Prop :=
  r.active = true → ∀ ym ∈ ms,
    ∀ d ∈ getDatesForRecurringTask r.frequency ym.1 ym.2,
      candidateDone today store r d

/-- The frequency codes the UI offers (src/script.js lines 1890-1911). -/
def supportedFrequencies : List String :=
  ["daily", "everyday",
   "weekly-mon", "weekly-tue", "weekly-wed", "weekly-thu",
   "weekly-fri", "weekly-sat", "weekly-sun",
   "monthly-1", "monthly-15", "monthly-last",
   "monthly-first-mon", "monthly-first-fri"]

/-- The one family of codes outside the supported set that the expander
does not map to the empty list: a `weekly-`-prefixed code whose second
dash-separated component is one of the seven weekday keys (e.g.
`weekly-mon-x`), which `dayMap[frequency.split('-')[1]]` resolves exactly
as the corresponding supported weekly code. -/
def weeklyAliasQuirk (frequency : String) : Prop :=
  jsStartsWith frequency "weekly-" = true ∧
  ((jsSplit '-' frequency)[1]?.bind weeklyDayMap).isSome = true

/-- A small concrete definition list used to instantiate the toggle
theorem: two definitions with distinct ids, one in the "work" context. -/
def toggleWitnessDefs : List RecurringTask :=
  [⟨1, "A", "work", "today", "everyday", true, []⟩,
   ⟨2, "B", "personal", "today", "daily", false, []⟩]

/-! ## Calendar lemmas -/

theorem daysInMonth_ge (y m : Nat) : 28 ≤ daysInMonth y m := by
  unfold daysInMonth
  split
  · split <;> omega
  all_goals omega

/-- In any window of 7 consecutive values of `d`, the residue `(A + d) % 7`
takes each value below 7. -/
theorem exists_weekday_solution (A t : Nat) (ht : t < 7) :
    ∃ d, 1 ≤ d ∧ d ≤ 7 ∧ (A + d) % 7 = t := by
  refine ⟨(t + 7 - A % 7 - 1) % 7 + 1, ?_, ?_, ?_⟩ <;> omega

theorem firstWeekdayInWindow_spec (y m t : Nat) (ht : t < 7) :
    ∃ d, firstWeekdayInWindow y m t = [⟨y, m, d⟩] ∧
      1 ≤ d ∧ d ≤ 7 ∧ dayOfWeek y m d = t := by
  obtain ⟨d₀, hd1, hd2, hd3⟩ := exists_weekday_solution
    (365 * (y - 1) + ((y - 1) / 4 - (y - 1) / 100 + (y - 1) / 400)
      + daysBeforeMonth y m) t ht
  have hdow : dayOfWeek y m d₀ = t := hd3
  have hmem : d₀ ∈ (List.range 7).map (· + 1) := by
    simp only [List.mem_map, List.mem_range]
    exact ⟨d₀ - 1, by omega, by omega⟩
  have hsome :
      (((List.range 7).map (· + 1)).find?
        (fun d => dayOfWeek y m d == t)).isSome = true := by
    rw [List.find?_isSome]
    exact ⟨d₀, hmem, by simp [hdow]⟩
  obtain ⟨e, he⟩ := Option.isSome_iff_exists.mp hsome
  have hpe : dayOfWeek y m e = t := by
    have := List.find?_some he
    simpa using this
  have heMem := List.mem_of_find?_eq_some he
  simp only [List.mem_map, List.mem_range] at heMem
  obtain ⟨i, hi, rfl⟩ := heMem
  refine ⟨i + 1, ?_, by omega, by omega, hpe⟩
  unfold firstWeekdayInWindow
  rw [he]

theorem firstWeekdayInWindow_mem (y m t : Nat) :
    ∀ d ∈ firstWeekdayInWindow y m t,
      d.year = y ∧ d.month = m ∧ 1 ≤ d.day ∧ d.day ≤ 7 := by
  intro d hd
  unfold firstWeekdayInWindow at hd
  cases hfind : ((List.range 7).map (· + 1)).find?
      (fun d => dayOfWeek y m d == t) with
  | none => rw [hfind] at hd; simp at hd
  | some e =>
    rw [hfind] at hd
    simp only [List.mem_singleton] at hd
    subst hd
    have heMem := List.mem_of_find?_eq_some hfind
    simp only [List.mem_map, List.mem_range] at heMem
    obtain ⟨i, hi, rfl⟩ := heMem
    exact ⟨rfl, rfl, show 1 ≤ i + 1 by omega, show i + 1 ≤ 7 by omega⟩

theorem monthDays_mem (y m : Nat) :
    ∀ d ∈ monthDays y m,
      d.year = y ∧ d.month = m ∧ 1 ≤ d.day ∧ d.day ≤ daysInMonth y m := by
  intro d hd
  unfold monthDays at hd
  simp only [List.mem_map, List.mem_range] at hd
  obtain ⟨i, hi, rfl⟩ := hd
  exact ⟨rfl, rfl, show 1 ≤ i + 1 by omega,
    show i + 1 ≤ daysInMonth y m by omega⟩

/-! ## C5: the `everyday` expansion -/

/-- C5: for every (year, month), `expand('everyday', month)` returns
exactly `daysInMonth` dates, the i-th being day i+1 of that month
(contiguous coverage of days 1..daysInMonth), sorted strictly ascending
and without duplicates. -/
theorem everyday_expansion_exact (y m : Nat) :
    (getDatesForRecurringTask "everyday" y m).length = daysInMonth y m ∧
    (∀ i (h : i < (getDatesForRecurringTask "everyday" y m).length),
      (getDatesForRecurringTask "everyday" y m).get ⟨i, h⟩ = ⟨y, m, i + 1⟩) ∧
    (getDatesForRecurringTask "everyday" y m).Pairwise
      (fun a b => Date.lt a b = true) ∧
    (getDatesForRecurringTask "everyday" y m).Nodup := by
  have hE : getDatesForRecurringTask "everyday" y m = monthDays y m := rfl
  rw [hE]
  refine ⟨by simp [monthDays], ?_, ?_, ?_⟩
  · intro i h
    simp [monthDays]
  · unfold monthDays
    refine List.Pairwise.map _ ?_ (List.pairwise_lt_range (daysInMonth y m))
    intro a b hab
    simp only [Date.lt, decide_eq_true_eq]
    exact Or.inr ⟨trivial, Or.inr ⟨trivial, Nat.add_lt_add_right hab 1⟩⟩
  · unfold monthDays
    refine List.Nodup.map ?_ (List.nodup_range (daysInMonth y m))
    intro a b hab
    simpa using hab

/-! ## C6: first-Monday / first-Friday expansions -/

/-- C6: for every (year, month), the `monthly-first-mon` and
`monthly-first-fri` expansions each return exactly one date, that date
falls on day 1..7 of the target month, and its weekday is Monday
(`getDay() = 1`), respectively Friday (`getDay() = 5`). -/
theorem monthly_first_weekday_exact (y m : Nat) :
    (∃ d, getDatesForRecurringTask "monthly-first-mon" y m = [⟨y, m, d⟩] ∧
      1 ≤ d ∧ d ≤ 7 ∧ dayOfWeek y m d = 1) ∧
    (∃ d, getDatesForRecurringTask "monthly-first-fri" y m = [⟨y, m, d⟩] ∧
      1 ≤ d ∧ d ≤ 7 ∧ dayOfWeek y m d = 5) := by
  constructor
  · have h : getDatesForRecurringTask "monthly-first-mon" y m =
        firstWeekdayInWindow y m 1 := rfl
    rw [h]
    exact firstWeekdayInWindow_spec y m 1 (by omega)
  · have h : getDatesForRecurringTask "monthly-first-fri" y m =
        firstWeekdayInWindow y m 5 := rfl
    rw [h]
    exact firstWeekdayInWindow_spec y m 5 (by omega)

/-! ## C7: unknown frequency codes -/

/-- C7 counterexample: `weekly-mon-x` is not one of the supported codes,
yet the expander does not return the empty sequence for it — the weekly
branch reads `frequency.split('-')[1] = "mon"` and expands it exactly like
`weekly-mon` (the Mondays of January 2025). -/
theorem unknown_frequency_empty_cex :
    "weekly-mon-x" ∉ supportedFrequencies ∧
    getDatesForRecurringTask "weekly-mon-x" 2025 1 ≠ [] := by
  constructor
  · decide
  · decide

/-- C7 amended: a frequency code outside the supported set yields the
empty sequence, except for the `weekly-<day>-<junk>` family, whose second
dash-separated component is still a weekday key and which is expanded
like the corresponding weekly code.  (The expander is a total function,
so it cannot throw.) -/
theorem unknown_frequency_empty (f : String) (y m : Nat)
    (hsup : f ∉ supportedFrequencies) (hq : ¬ weeklyAliasQuirk f) :
    getDatesForRecurringTask f y m = [] := by
  unfold getDatesForRecurringTask
  split_ifs with h1 h2 h3 h4 h5 h6 h7 h8 h9 h10
  · subst h1; exact absurd (by decide) hsup
  · subst h2; exact absurd (by decide) hsup
  · cases hbind : (jsSplit '-' f)[1]?.bind weeklyDayMap with
    | none => rfl
    | some target => exact absurd ⟨h3, by simp [hbind]⟩ hq
  · subst h5; exact absurd (by decide) hsup
  · subst h6; exact absurd (by decide) hsup
  · rfl
  · subst h8; exact absurd (by decide) hsup
  · subst h9; exact absurd (by decide) hsup
  · subst h10; exact absurd (by decide) hsup
  · rfl
  · rfl

/-- Witness for the amended C7 at the concrete code `"foo"`. -/
theorem unknown_frequency_empty_witness :
    ("foo" ∉ supportedFrequencies) ∧ (¬ weeklyAliasQuirk "foo") ∧
      getDatesForRecurringTask "foo" 2025 1 = [] := by
  have h1 : "foo" ∉ supportedFrequencies := by decide
  have h2 : ¬ weeklyAliasQuirk "foo" := by
    rintro ⟨hs, -⟩
    exact absurd hs (by decide)
  exact ⟨h1, h2, unknown_frequency_empty "foo" 2025 1 h1 h2⟩

/-! ## C8: expansion stays inside the target month -/

/-- C8: for every frequency code and target (year, month), every date the
expander returns lies in that year and month, on a day between 1 and
`daysInMonth`; the expander is a plain function of its arguments, hence
deterministic and side-effect free. -/
theorem expansion_within_month (f : String) (y m : Nat) :
    ∀ d ∈ getDatesForRecurringTask f y m,
      d.year = y ∧ d.month = m ∧ 1 ≤ d.day ∧ d.day ≤ daysInMonth y m := by
  have hge := daysInMonth_ge y m
  intro d hd
  unfold getDatesForRecurringTask at hd
  split_ifs at hd with h1 h2 h3 h4 h5 h6 h7 h8 h9 h10
  · exact monthDays_mem y m d hd
  · exact monthDays_mem y m d (List.mem_of_mem_filter hd)
  · cases hbind : (jsSplit '-' f)[1]?.bind weeklyDayMap with
    | none => rw [hbind] at hd; simp [weeklyDates] at hd
    | some target =>
      rw [hbind] at hd
      exact monthDays_mem y m d (List.mem_of_mem_filter hd)
  · simp only [List.mem_singleton] at hd
    subst hd
    exact ⟨rfl, rfl, Nat.le_refl 1, show 1 ≤ daysInMonth y m by omega⟩
  · simp only [List.mem_singleton] at hd
    subst hd
    exact ⟨rfl, rfl, show (1:Nat) ≤ 15 by omega,
      show 15 ≤ daysInMonth y m from h7⟩
  · simp at hd
  · simp only [List.mem_singleton] at hd
    subst hd
    exact ⟨rfl, rfl, show 1 ≤ daysInMonth y m by omega, Nat.le_refl _⟩
  · have h := firstWeekdayInWindow_mem y m 1 d hd
    exact ⟨h.1, h.2.1, h.2.2.1, by omega⟩
  · have h := firstWeekdayInWindow_mem y m 5 d hd
    exact ⟨h.1, h.2.1, h.2.2.1, by omega⟩
  · simp at hd
  · simp at hd

/-- Witness for C8 at the `everyday` expansion of January 2025 and the
date 2025-01-06. -/
theorem expansion_within_month_witness :
    (⟨2025, 1, 6⟩ : Date) ∈ getDatesForRecurringTask "everyday" 2025 1 ∧
    ((⟨2025, 1, 6⟩ : Date).year = 2025 ∧ (⟨2025, 1, 6⟩ : Date).month = 1 ∧
      1 ≤ (⟨2025, 1, 6⟩ : Date).day ∧
      (⟨2025, 1, 6⟩ : Date).day ≤ daysInMonth 2025 1) :=
  ⟨by decide,
    expansion_within_month "everyday" 2025 1 ⟨2025, 1, 6⟩ (by decide)⟩

/-! ## C4: cascade delete removes all same-titled instances -/

/-- C4: cascade-deleting a definition removes, from every (date, context)
cell of the store, exactly the instances whose title equals the
definition's title — including instances created independently of the
reconciler — and keeps every other instance.  (The "Standup" example of
the spec is the instance of this equivalence for its six instances.) -/
theorem cascade_delete_removes_exactly_title (store : TaskStore)
    (title : String) (d : Date) (c : String) (t : TaskInstance) :
    t ∈ getTasksForDate (cascadeDeleteInstances store title) d c ↔
      (t ∈ getTasksForDate store d c ∧ t.title ≠ title) := by
  induction store with
  | nil => simp [cascadeDeleteInstances, getTasksForDate]
  | cons e rest ih =>
    by_cases hkey : e.1 = d ∧ e.2.1 = c
    · unfold getTasksForDate cascadeDeleteInstances
      rw [List.map_cons, List.find?_cons_of_pos _ (by simpa using hkey),
        List.find?_cons_of_pos _ (by simpa using hkey)]
      simp [List.mem_filter]
    · unfold getTasksForDate cascadeDeleteInstances
      rw [List.map_cons, List.find?_cons_of_neg _ (by simpa using hkey),
        List.find?_cons_of_neg _ (by simpa using hkey)]
      exact ih

/-! ## C9: toggling flips only the `active` flag -/

/-- With pairwise-distinct ids, `findIndex(t => t.id === task.id)` finds
exactly the position of `task` itself. -/
theorem findIdx_by_id_of_nodup (recurring : List RecurringTask)
    (task : RecurringTask) (hmem : task ∈ recurring)
    (hids : (recurring.map RecurringTask.id).Nodup) :
    ∃ j, ∃ hj : j < recurring.length,
      recurring.findIdx (fun t => decide (t.id = task.id)) = j ∧
      recurring[j] = task := by
  have hex : ∃ x ∈ recurring, decide (x.id = task.id) = true :=
    ⟨task, hmem, by simp⟩
  have hjlt := List.findIdx_lt_length_of_exists hex
  have hpj := @List.findIdx_getElem _
    (fun t => decide (t.id = task.id)) recurring hjlt
  simp only [decide_eq_true_eq] at hpj
  obtain ⟨i₀, hi₀, htaski⟩ := List.getElem_of_mem hmem
  have hpw : recurring.Pairwise (fun a b => a.id ≠ b.id) :=
    List.pairwise_map.mp hids
  have hideq : (recurring[recurring.findIdx
      (fun t => decide (t.id = task.id))]).id = (recurring[i₀]).id :=
    hpj.trans (congrArg RecurringTask.id htaski).symm
  have hj_eq : recurring.findIdx (fun t => decide (t.id = task.id)) = i₀ := by
    rcases Nat.lt_trichotomy
      (recurring.findIdx (fun t => decide (t.id = task.id))) i₀ with
        hlt | heq | hgt
    · exact absurd hideq
        (List.pairwise_iff_getElem.mp hpw _ _ hjlt hi₀ hlt)
    · exact heq
    · exact absurd hideq.symm
        (List.pairwise_iff_getElem.mp hpw _ _ hi₀ hjlt hgt)
  exact ⟨i₀, hi₀, hj_eq, htaski⟩

/-- C9: toggling the `index`-th definition of the current context flips
exactly that definition's `active` flag (its id, title, context, status,
frequency and ledger are untouched, as the `{ r with active := !r.active }`
update states), leaves every other definition unchanged, and leaves the
instance cache — hence every task instance — untouched. -/
theorem toggle_flips_only_active (recurring : List RecurringTask)
    (store : TaskStore) (ctx : String) (index : Nat)
    (h : index < (recurring.filter (fun t => decide (t.context = ctx))).length)
    (hids : (recurring.map RecurringTask.id).Nodup) :
    ∃ j, j < recurring.length ∧ ∃ r,
      recurring[j]? = some r ∧
      (recurring.filter (fun t => decide (t.context = ctx)))[index]? = some r ∧
      toggleRecurringTask recurring ctx index =
        recurring.set j { r with active := !r.active } ∧
      (∀ i, i ≠ j → (toggleRecurringTask recurring ctx index)[i]? =
        recurring[i]?) ∧
      (toggleRecurringTaskState { tasks := store, recurring := recurring }
        ctx index).tasks = store := by
  obtain ⟨task, hsome⟩ :
      ∃ task, (recurring.filter (fun t => decide (t.context = ctx)))[index]? =
        some task := ⟨_, List.getElem?_eq_getElem h⟩
  have htmem : task ∈ recurring :=
    List.mem_of_mem_filter (List.getElem?_mem hsome)
  obtain ⟨j, hjlen, hfind⟩ := findIdx_by_id_of_nodup recurring task htmem hids
  refine ⟨j, hjlen, task, ?_, hsome, ?_, ?_, rfl⟩
  · rw [List.getElem?_eq_getElem hjlen, hfind.2]
  · simp only [toggleRecurringTask, hsome, hfind.1,
      List.getElem?_eq_getElem hjlen, hfind.2]
  · intro i hij
    simp only [toggleRecurringTask, hsome, hfind.1,
      List.getElem?_eq_getElem hjlen, hfind.2]
    exact List.getElem?_set_ne (fun hh => hij hh.symm)

/-- Witness for C9 at a concrete two-definition list. -/
theorem toggle_flips_only_active_witness :
    0 < (toggleWitnessDefs.filter (fun t => decide (t.context = "work"))).length ∧
    (toggleWitnessDefs.map RecurringTask.id).Nodup ∧
    (∃ j, j < toggleWitnessDefs.length ∧ ∃ r,
      toggleWitnessDefs[j]? = some r ∧
      (toggleWitnessDefs.filter (fun t => decide (t.context = "work")))[0]? =
        some r ∧
      toggleRecurringTask toggleWitnessDefs "work" 0 =
        toggleWitnessDefs.set j { r with active := !r.active } ∧
      (∀ i, i ≠ j → (toggleRecurringTask toggleWitnessDefs "work" 0)[i]? =
        toggleWitnessDefs[i]?) ∧
      (toggleRecurringTaskState { tasks := [], recurring := toggleWitnessDefs }
        "work" 0).tasks = []) :=
  ⟨by decide, by decide,
    toggle_flips_only_active toggleWitnessDefs [] "work" 0
      (by decide) (by decide)⟩

/-! ## C1: the past-date guard -/

theorem processCandidate_created (co : TaskInstance → Bool) (today : Date)
    (now : Nat) (acc : RunState × RecurringTask) (d : Date) :
    ∀ t ∈ (processCandidate co today now acc d).1.created,
      t ∈ acc.1.created ∨ Date.lt t.date today = false := by
  simp only [processCandidate]
  split_ifs with h1 h2 h3 h4
  · exact fun t ht => Or.inl ht
  · exact fun t ht => Or.inl ht
  · exact fun t ht => Or.inl ht
  all_goals
    intro t ht
    simp only [List.mem_append, List.mem_singleton] at ht
    rcases ht with ht | rfl
    · exact Or.inl ht
    · right
      simpa using h1

theorem foldl_processCandidate_created (co : TaskInstance → Bool)
    (today : Date) (now : Nat) (dates : List Date) :
    ∀ acc, ∀ t ∈ (dates.foldl (processCandidate co today now) acc).1.created,
      t ∈ acc.1.created ∨ Date.lt t.date today = false := by
  induction dates with
  | nil => exact fun acc t ht => Or.inl ht
  | cons d ds ih =>
    intro acc t ht
    rw [List.foldl_cons] at ht
    rcases ih _ t ht with hmem | hok
    · rcases processCandidate_created co today now acc d t hmem with h | h
      · exact Or.inl h
      · exact Or.inr h
    · exact Or.inr hok

theorem processDefMonth_created (co : TaskInstance → Bool) (today : Date)
    (now : Nat) (ym : Nat × Nat) (rs : RunState) (r : RecurringTask) :
    ∀ t ∈ (processDefMonth co today now ym rs r).1.created,
      t ∈ rs.created ∨ Date.lt t.date today = false := by
  unfold processDefMonth
  split_ifs with ha
  · exact fun t ht => foldl_processCandidate_created co today now _ (rs, r) t ht
  · exact fun t ht => Or.inl ht

theorem processMonth_created (co : TaskInstance → Bool) (today : Date)
    (now : Nat) (ym : Nat × Nat) :
    ∀ (l : List RecurringTask) (rs : RunState),
      ∀ t ∈ (processMonth co today now ym rs l).1.created,
        t ∈ rs.created ∨ Date.lt t.date today = false := by
  intro l
  induction l with
  | nil =>
    intro rs t ht
    simp only [processMonth] at ht
    exact Or.inl ht
  | cons r rest ih =>
    intro rs t ht
    simp only [processMonth] at ht
    rcases ih _ t ht with h | h
    · rcases processDefMonth_created co today now ym rs r t h with h' | h'
      · exact Or.inl h'
      · exact Or.inr h'
    · exact Or.inr h

theorem months_foldl_created (co : TaskInstance → Bool) (today : Date)
    (now : Nat) (ms : List (Nat × Nat)) :
    ∀ (acc : RunState × List RecurringTask),
      ∀ t ∈ (ms.foldl (fun a ym =>
          processMonth co today now ym a.1 a.2) acc).1.created,
        t ∈ acc.1.created ∨ Date.lt t.date today = false := by
  induction ms with
  | nil => exact fun acc t ht => Or.inl ht
  | cons ym ms ih =>
    intro acc t ht
    rw [List.foldl_cons] at ht
    rcases ih _ t ht with h | h
    · rcases processMonth_created co today now ym acc.2 acc.1 t h with h' | h'
      · exact Or.inl h'
      · exact Or.inr h'
    · exact Or.inr h

/-- C1: no run of the reconciler ever creates a task instance dated
strictly before `today`, for any definition list, any frequency pattern
(`everyday` included) and any creation-failure pattern: every instance a
run constructs has `Date.lt date today = false`. -/
theorem reconciler_past_date_guard (co : TaskInstance → Bool)
    (today : Date) (now nextId : Nat) (st : ReconcileState) :
    ∀ t ∈ (generateRecurringTasks co today now nextId st).created,
      Date.lt t.date today = false := by
  intro t ht
  simp only [generateRecurringTasks] at ht
  rcases months_foldl_created co today now (monthsWindow today) _ t ht with
    h | h
  · simp at h
  · exact h

/-- Witness for C1 at a concrete run: the July 1 instance a `monthly-1`
definition generates when today is 2025-06-15. -/
theorem reconciler_past_date_guard_witness :
    ({ id := 0, date := ⟨2025, 7, 1⟩, context := "work", title := "A",
       notes := "", status := "today", completed := false, priority := 0,
       createdAt := 0 } : TaskInstance) ∈
      (generateRecurringTasks (fun _ => true) ⟨2025, 6, 15⟩ 0 0
        { tasks := [],
          recurring := [⟨1, "A", "work", "today", "monthly-1", true, []⟩]
        }).created ∧
    Date.lt (⟨2025, 7, 1⟩ : Date) ⟨2025, 6, 15⟩ = false :=
  ⟨by decide,
    reconciler_past_date_guard (fun _ => true) ⟨2025, 6, 15⟩ 0 0
      { tasks := [],
        recurring := [⟨1, "A", "work", "today", "monthly-1", true, []⟩] }
      { id := 0, date := ⟨2025, 7, 1⟩, context := "work", title := "A",
        notes := "", status := "today", completed := false, priority := 0,
        createdAt := 0 } (by decide)⟩

/-! ## C2: behaviour on instance-creation failure -/

theorem processCandidate_core_eq (co₁ co₂ : TaskInstance → Bool)
    (today : Date) (now : Nat) (acc₁ acc₂ : RunState × RecurringTask)
    (d : Date) (hcore : acc₁.1.core = acc₂.1.core) (hr : acc₁.2 = acc₂.2) :
    (processCandidate co₁ today now acc₁ d).1.core =
      (processCandidate co₂ today now acc₂ d).1.core ∧
    (processCandidate co₁ today now acc₁ d).2 =
      (processCandidate co₂ today now acc₂ d).2 := by
  have hs : acc₁.1.store = acc₂.1.store := congrArg Prod.fst hcore
  have hn : acc₁.1.nextId = acc₂.1.nextId :=
    congrArg (fun p => p.2.1) hcore
  have hc : acc₁.1.created = acc₂.1.created :=
    congrArg (fun p => p.2.2) hcore
  simp only [processCandidate]
  rw [← hr, ← hs, ← hn, ← hc]
  split_ifs with h1 h2 h3 h4 h5
  all_goals simp_all [RunState.core]

theorem foldl_processCandidate_core_eq (co₁ co₂ : TaskInstance → Bool)
    (today : Date) (now : Nat) (dates : List Date) :
    ∀ acc₁ acc₂ : RunState × RecurringTask,
      acc₁.1.core = acc₂.1.core → acc₁.2 = acc₂.2 →
      (dates.foldl (processCandidate co₁ today now) acc₁).1.core =
        (dates.foldl (processCandidate co₂ today now) acc₂).1.core ∧
      (dates.foldl (processCandidate co₁ today now) acc₁).2 =
        (dates.foldl (processCandidate co₂ today now) acc₂).2 := by
  induction dates with
  | nil => exact fun acc₁ acc₂ hcore hr => ⟨hcore, hr⟩
  | cons d ds ih =>
    intro acc₁ acc₂ hcore hr
    rw [List.foldl_cons, List.foldl_cons]
    obtain ⟨hcore', hr'⟩ :=
      processCandidate_core_eq co₁ co₂ today now acc₁ acc₂ d hcore hr
    exact ih _ _ hcore' hr'

theorem processDefMonth_core_eq (co₁ co₂ : TaskInstance → Bool)
    (today : Date) (now : Nat) (ym : Nat × Nat) (rs₁ rs₂ : RunState)
    (r : RecurringTask) (hcore : rs₁.core = rs₂.core) :
    (processDefMonth co₁ today now ym rs₁ r).1.core =
      (processDefMonth co₂ today now ym rs₂ r).1.core ∧
    (processDefMonth co₁ today now ym rs₁ r).2 =
      (processDefMonth co₂ today now ym rs₂ r).2 := by
  unfold processDefMonth
  split_ifs with ha
  · exact foldl_processCandidate_core_eq co₁ co₂ today now _
      (rs₁, r) (rs₂, r) hcore rfl
  · exact ⟨hcore, rfl⟩

theorem processMonth_core_eq (co₁ co₂ : TaskInstance → Bool)
    (today : Date) (now : Nat) (ym : Nat × Nat) :
    ∀ (l : List RecurringTask) (rs₁ rs₂ : RunState),
      rs₁.core = rs₂.core →
      (processMonth co₁ today now ym rs₁ l).1.core =
        (processMonth co₂ today now ym rs₂ l).1.core ∧
      (processMonth co₁ today now ym rs₁ l).2 =
        (processMonth co₂ today now ym rs₂ l).2 := by
  intro l
  induction l with
  | nil =>
    intro rs₁ rs₂ hcore
    simp only [processMonth]
    exact ⟨hcore, trivial⟩
  | cons r rest ih =>
    intro rs₁ rs₂ hcore
    simp only [processMonth]
    obtain ⟨hcore', hr'⟩ :=
      processDefMonth_core_eq co₁ co₂ today now ym rs₁ rs₂ r hcore
    obtain ⟨hcore'', hrest⟩ := ih _ _ hcore'
    exact ⟨hcore'', by rw [hr', hrest]⟩

theorem months_foldl_core_eq (co₁ co₂ : TaskInstance → Bool)
    (today : Date) (now : Nat) (ms : List (Nat × Nat)) :
    ∀ acc₁ acc₂ : RunState × List RecurringTask,
      acc₁.1.core = acc₂.1.core → acc₁.2 = acc₂.2 →
      (ms.foldl (fun a ym =>
          processMonth co₁ today now ym a.1 a.2) acc₁).1.core =
        (ms.foldl (fun a ym =>
          processMonth co₂ today now ym a.1 a.2) acc₂).1.core ∧
      (ms.foldl (fun a ym =>
          processMonth co₁ today now ym a.1 a.2) acc₁).2 =
        (ms.foldl (fun a ym =>
          processMonth co₂ today now ym a.1 a.2) acc₂).2 := by
  induction ms with
  | nil => exact fun acc₁ acc₂ hcore hl => ⟨hcore, hl⟩
  | cons ym ms ih =>
    intro acc₁ acc₂ hcore hl
    rw [List.foldl_cons, List.foldl_cons]
    obtain ⟨hcore', hl'⟩ :=
      processMonth_core_eq co₁ co₂ today now ym acc₁.2 acc₁.1 acc₂.1 hcore
    rw [hl] at hcore' hl' ⊢
    exact ih _ _ hcore' hl'

/-- C2 counterexample: with storage failing every creation
(`createOk = fun _ => false`), a run over one active `monthly-1`
definition still appends the failed dates to `generatedDates` — the
failure is caught, the loop continues, and the ledger push is
unconditional — contradicting the claim that a failed date is not
appended to the ledger. -/
theorem creation_failure_ledger_cex :
    ∃ t ∈ (generateRecurringTasks (fun _ => false) ⟨2025, 6, 15⟩ 0 0
      { tasks := [],
        recurring :=
          [⟨1, "A", "work", "today", "monthly-1", true, []⟩] }).failures,
    ∃ r ∈ (generateRecurringTasks (fun _ => false) ⟨2025, 6, 15⟩ 0 0
      { tasks := [],
        recurring :=
          [⟨1, "A", "work", "today", "monthly-1", true, []⟩] }).state.recurring,
      t.date ∈ r.generatedDates := by decide

/-- C2 amended: an instance-creation failure is caught per candidate and
does not abort the loop over the remaining candidates or definitions —
but the candidate date is appended to `generatedDates` regardless of the
outcome: a run's final state and creation transcript are independent of
the failure pattern (only the failure log reflects it). -/
theorem creation_failure_isolated (co : TaskInstance → Bool) (today : Date)
    (now nextId : Nat) (st : ReconcileState) :
    (generateRecurringTasks co today now nextId st).state =
      (generateRecurringTasks (fun _ => true) today now nextId st).state ∧
    (generateRecurringTasks co today now nextId st).created =
      (generateRecurringTasks (fun _ => true) today now nextId st).created := by
  simp only [generateRecurringTasks]
  obtain ⟨hcore, hl⟩ := months_foldl_core_eq co (fun _ => true) today now
    (monthsWindow today)
    ({ store := st.tasks, nextId := nextId, created := [], failures := [] },
      st.recurring)
    ({ store := st.tasks, nextId := nextId, created := [], failures := [] },
      st.recurring) rfl rfl
  have hs := congrArg Prod.fst hcore
  have hc := congrArg (fun p => p.2.2) hcore
  simp only [RunState.core] at hs hc
  exact ⟨by rw [ReconcileState.mk.injEq]; exact ⟨hs, hl⟩, hc⟩

/-! ## C3: idempotence of reconciliation -/

theorem getTasksForDate_save_self (s : TaskStore) (d : Date) (c : String)
    (L : List TaskInstance) :
    getTasksForDate (saveTasksForDate s d c L) d c = L := by
  induction s with
  | nil => simp [saveTasksForDate, getTasksForDate, List.find?]
  | cons e rest ih =>
    by_cases h : e.1 = d ∧ e.2.1 = c
    · simp [saveTasksForDate, if_pos h, getTasksForDate, List.find?]
    · simp only [saveTasksForDate, if_neg h]
      unfold getTasksForDate
      rw [List.find?_cons_of_neg _ (by simpa using h)]
      exact ih

theorem getTasksForDate_save_other (s : TaskStore) (d : Date) (c : String)
    (L : List TaskInstance) (e' : Date) (c' : String)
    (h : ¬(e' = d ∧ c' = c)) :
    getTasksForDate (saveTasksForDate s d c L) e' c' =
      getTasksForDate s e' c' := by
  induction s with
  | nil =>
    unfold saveTasksForDate getTasksForDate
    rw [List.find?_cons_of_neg _ (by
      simp only [decide_eq_true_eq]
      exact fun hh => h ⟨hh.1.symm, hh.2.symm⟩)]
  | cons e rest ih =>
    by_cases he : e.1 = d ∧ e.2.1 = c
    · simp only [saveTasksForDate, if_pos he]
      unfold getTasksForDate
      rw [List.find?_cons_of_neg _ (by
          simp only [decide_eq_true_eq]
          exact fun hh => h ⟨hh.1.symm, hh.2.symm⟩),
        List.find?_cons_of_neg _ (by
          simp only [decide_eq_true_eq]
          exact fun hh => h ⟨he.1 ▸ hh.1.symm, he.2 ▸ hh.2.symm⟩)]
    · simp only [saveTasksForDate, if_neg he]
      unfold getTasksForDate
      by_cases hp : e.1 = e' ∧ e.2.1 = c'
      · rw [List.find?_cons_of_pos _ (by simpa using hp),
          List.find?_cons_of_pos _ (by simpa using hp)]
      · rw [List.find?_cons_of_neg _ (by simpa using hp),
          List.find?_cons_of_neg _ (by simpa using hp)]
        exact ih

theorem mem_sortTasks (l : List TaskInstance) (t : TaskInstance) :
    t ∈ sortTasks l ↔ t ∈ l :=
  (List.mergeSort_perm l _).mem_iff

theorem storeMono_refl (s : TaskStore) : storeMono s s := fun _ _ _ h => h

theorem storeMono_trans {a b c : TaskStore} (h₁ : storeMono a b)
    (h₂ : storeMono b c) : storeMono a c :=
  fun d cc T h => h₂ d cc T (h₁ d cc T h)

theorem ledgerExt_refl (r : RecurringTask) : ledgerExt r r :=
  ⟨rfl, rfl, rfl, rfl, rfl, rfl, fun _ h => h⟩

theorem ledgerExt_trans {a b c : RecurringTask} (h₁ : ledgerExt a b)
    (h₂ : ledgerExt b c) : ledgerExt a c :=
  ⟨h₂.1.trans h₁.1, h₂.2.1.trans h₁.2.1, h₂.2.2.1.trans h₁.2.2.1,
    h₂.2.2.2.1.trans h₁.2.2.2.1, h₂.2.2.2.2.1.trans h₁.2.2.2.2.1,
    h₂.2.2.2.2.2.1.trans h₁.2.2.2.2.2.1,
    fun d hd => h₂.2.2.2.2.2.2 d (h₁.2.2.2.2.2.2 d hd)⟩

theorem candidateDone_mono {today : Date} {s s' : TaskStore}
    {r r' : RecurringTask} {d : Date} (h : candidateDone today s r d)
    (hs : storeMono s s') (hr : ledgerExt r r') :
    candidateDone today s' r' d := by
  rcases h with h | h | h
  · exact Or.inl h
  · exact Or.inr (Or.inl (hr.2.2.2.2.2.2 d h))
  · refine Or.inr (Or.inr ?_)
    rw [hr.2.2.1, hr.2.1]
    exact hs d r.context r.title h

theorem processCandidate_storeMono (co : TaskInstance → Bool) (today : Date)
    (now : Nat) (acc : RunState × RecurringTask) (d : Date) :
    storeMono acc.1.store (processCandidate co today now acc d).1.store := by
  simp only [processCandidate]
  split_ifs with h1 h2 h3 h4
  · exact storeMono_refl _
  · exact storeMono_refl _
  · exact storeMono_refl _
  all_goals
    intro d' c' T h
    by_cases hkey : d' = d ∧ c' = acc.2.context
    · obtain ⟨rfl, rfl⟩ := hkey
      unfold hasTitle at h ⊢
      rw [getTasksForDate_save_self]
      rw [List.any_eq_true] at h ⊢
      obtain ⟨x, hx, hpx⟩ := h
      exact ⟨x, (mem_sortTasks _ x).mpr (List.mem_append_left _ hx), hpx⟩
    · unfold hasTitle at h ⊢
      rw [getTasksForDate_save_other _ _ _ _ _ _ hkey]
      exact h

theorem processCandidate_ledgerExt (co : TaskInstance → Bool) (today : Date)
    (now : Nat) (acc : RunState × RecurringTask) (d : Date) :
    ledgerExt acc.2 (processCandidate co today now acc d).2 := by
  simp only [processCandidate]
  split_ifs with h1 h2 h3 h4
  · exact ledgerExt_refl _
  · exact ledgerExt_refl _
  · exact ledgerExt_refl _
  all_goals
    exact ⟨rfl, rfl, rfl, rfl, rfl, rfl,
      fun e he => List.mem_append_left _ he⟩

theorem processCandidate_done (co : TaskInstance → Bool) (today : Date)
    (now : Nat) (acc : RunState × RecurringTask) (d : Date) :
    candidateDone today (processCandidate co today now acc d).1.store
      (processCandidate co today now acc d).2 d := by
  simp only [processCandidate]
  split_ifs with h1 h2 h3 h4
  · exact Or.inl h1
  · exact Or.inr (Or.inl h2)
  · exact Or.inr (Or.inr h3)
  all_goals
    exact Or.inr (Or.inl (List.mem_append_right _ (List.mem_singleton.mpr rfl)))

theorem processCandidate_skip (co : TaskInstance → Bool) (today : Date)
    (now : Nat) (rs : RunState) (r : RecurringTask) (d : Date)
    (h : candidateDone today rs.store r d) :
    processCandidate co today now (rs, r) d = (rs, r) := by
  simp only [processCandidate]
  split_ifs with h1 h2 h3
  · rfl
  · rfl
  · rfl
  all_goals
    rcases h with h | h | h
    · exact absurd h h1
    · exact absurd h h2
    · exact absurd h h3

theorem forall2_mem_right {α β : Type} {R : α → β → Prop} :
    ∀ {l₁ : List α} {l₂ : List β}, List.Forall₂ R l₁ l₂ →
      ∀ b ∈ l₂, ∃ a ∈ l₁, R a b := by
  intro l₁ l₂ hf
  induction hf with
  | nil => intro b hb; simp at hb
  | cons hab htail ih =>
    intro b hb
    rcases List.mem_cons.mp hb with rfl | hb
    · exact ⟨_, List.mem_cons_self _ _, hab⟩
    · obtain ⟨a, ha, hr⟩ := ih b hb
      exact ⟨a, List.mem_cons_of_mem _ ha, hr⟩

theorem forall2_compose {α : Type} {R S T : α → α → Prop}
    (hcomp : ∀ a b c, R a b → S b c → T a c) :
    ∀ {l₁ l₂ l₃ : List α}, List.Forall₂ R l₁ l₂ → List.Forall₂ S l₂ l₃ →
      List.Forall₂ T l₁ l₃ := by
  intro l₁ l₂ l₃ h₁
  induction h₁ generalizing l₃ with
  | nil =>
    intro h₂
    cases h₂
    exact List.Forall₂.nil
  | cons hab htail ih =>
    intro h₂
    cases h₂ with
    | cons hbc htail₂ =>
      exact List.Forall₂.cons (hcomp _ _ _ hab hbc) (ih htail₂)

theorem foldl_processCandidate_invariant (co : TaskInstance → Bool)
    (today : Date) (now : Nat) (dates : List Date) :
    ∀ acc : RunState × RecurringTask,
      storeMono acc.1.store
        (dates.foldl (processCandidate co today now) acc).1.store ∧
      ledgerExt acc.2 (dates.foldl (processCandidate co today now) acc).2 ∧
      ∀ d ∈ dates,
        candidateDone today
          (dates.foldl (processCandidate co today now) acc).1.store
          (dates.foldl (processCandidate co today now) acc).2 d := by
  induction dates with
  | nil =>
    intro acc
    exact ⟨storeMono_refl _, ledgerExt_refl _, by simp⟩
  | cons d ds ih =>
    intro acc
    rw [List.foldl_cons]
    obtain ⟨hmono, hext, hdone⟩ := ih (processCandidate co today now acc d)
    refine ⟨storeMono_trans (processCandidate_storeMono co today now acc d)
        hmono,
      ledgerExt_trans (processCandidate_ledgerExt co today now acc d) hext,
      ?_⟩
    intro e he
    rcases List.mem_cons.mp he with rfl | he
    · exact candidateDone_mono (processCandidate_done co today now acc e)
        hmono hext
    · exact hdone e he

theorem processDefMonth_invariant (co : TaskInstance → Bool) (today : Date)
    (now : Nat) (ym : Nat × Nat) (rs : RunState) (r : RecurringTask) :
    storeMono rs.store (processDefMonth co today now ym rs r).1.store ∧
    ledgerExt r (processDefMonth co today now ym rs r).2 ∧
    (r.active = true →
      ∀ d ∈ getDatesForRecurringTask r.frequency ym.1 ym.2,
        candidateDone today (processDefMonth co today now ym rs r).1.store
          (processDefMonth co today now ym rs r).2 d) := by
  unfold processDefMonth
  split_ifs with ha
  · obtain ⟨h1, h2, h3⟩ := foldl_processCandidate_invariant co today now
      (getDatesForRecurringTask r.frequency ym.1 ym.2) (rs, r)
    exact ⟨h1, h2, fun _ => h3⟩
  · exact ⟨storeMono_refl _, ledgerExt_refl _, fun h => absurd h ha⟩

theorem processMonth_invariant (co : TaskInstance → Bool) (today : Date)
    (now : Nat) (ym : Nat × Nat) :
    ∀ (l : List RecurringTask) (rs : RunState),
      storeMono rs.store (processMonth co today now ym rs l).1.store ∧
      List.Forall₂ (fun r r' => ledgerExt r r' ∧
        (r.active = true →
          ∀ d ∈ getDatesForRecurringTask r.frequency ym.1 ym.2,
            candidateDone today
              (processMonth co today now ym rs l).1.store r' d))
        l (processMonth co today now ym rs l).2 := by
  intro l
  induction l with
  | nil =>
    intro rs
    simp only [processMonth]
    exact ⟨storeMono_refl _, List.Forall₂.nil⟩
  | cons r rest ih =>
    intro rs
    simp only [processMonth]
    obtain ⟨hm1, hext1, hdone1⟩ :=
      processDefMonth_invariant co today now ym rs r
    obtain ⟨hm2, hf2⟩ := ih (processDefMonth co today now ym rs r).1
    refine ⟨storeMono_trans hm1 hm2, List.Forall₂.cons ⟨hext1, ?_⟩ hf2⟩
    intro hact d hd
    exact candidateDone_mono (hdone1 hact d hd) hm2 (ledgerExt_refl _)

theorem months_foldl_invariant (co : TaskInstance → Bool) (today : Date)
    (now : Nat) (ms : List (Nat × Nat)) :
    ∀ acc : RunState × List RecurringTask,
      storeMono acc.1.store
        ((ms.foldl (fun a ym =>
          processMonth co today now ym a.1 a.2) acc).1).store ∧
      List.Forall₂ (fun r r' => ledgerExt r r' ∧
        (r.active = true → ∀ ym ∈ ms,
          ∀ d ∈ getDatesForRecurringTask r.frequency ym.1 ym.2,
            candidateDone today
              ((ms.foldl (fun a ym =>
                processMonth co today now ym a.1 a.2) acc).1).store r' d))
        acc.2
        (ms.foldl (fun a ym => processMonth co today now ym a.1 a.2) acc).2 := by
  induction ms with
  | nil =>
    intro acc
    refine ⟨storeMono_refl _, List.forall₂_same.mpr ?_⟩
    intro r hr
    exact ⟨ledgerExt_refl r, fun _ ym hym => absurd hym (by simp)⟩
  | cons ym ms ih =>
    intro acc
    rw [List.foldl_cons]
    obtain ⟨hm1, hf1⟩ := processMonth_invariant co today now ym acc.2 acc.1
    obtain ⟨hm2, hf2⟩ :=
      ih (processMonth co today now ym acc.1 acc.2)
    refine ⟨storeMono_trans hm1 hm2, ?_⟩
    refine forall2_compose ?_ hf1 hf2
    rintro a b c ⟨hext1, hdone1⟩ ⟨hext2, hdone2⟩
    refine ⟨ledgerExt_trans hext1 hext2, ?_⟩
    intro hact ym' hym' d hd
    rcases List.mem_cons.mp hym' with rfl | hym'
    · exact candidateDone_mono (hdone1 hact d hd) hm2 hext2
    · have hfreq : b.frequency = a.frequency := hext1.2.2.2.2.1
      have hactiv : b.active = a.active := hext1.2.2.2.2.2.1
      exact hdone2 (by rw [hactiv]; exact hact)
        ym' hym' d (by rw [hfreq]; exact hd)

theorem foldl_processCandidate_skip (co : TaskInstance → Bool)
    (today : Date) (now : Nat) (dates : List Date) (rs : RunState)
    (r : RecurringTask) :
    (∀ d ∈ dates, candidateDone today rs.store r d) →
    dates.foldl (processCandidate co today now) (rs, r) = (rs, r) := by
  induction dates with
  | nil => intro h; rfl
  | cons d ds ih =>
    intro h
    rw [List.foldl_cons,
      processCandidate_skip co today now rs r d (h d (List.mem_cons_self _ _))]
    exact ih (fun e he => h e (List.mem_cons_of_mem _ he))

theorem processMonth_skip (co : TaskInstance → Bool) (today : Date)
    (now : Nat) (ym : Nat × Nat) :
    ∀ (l : List RecurringTask) (rs : RunState),
      (∀ r ∈ l, r.active = true →
        ∀ d ∈ getDatesForRecurringTask r.frequency ym.1 ym.2,
          candidateDone today rs.store r d) →
      processMonth co today now ym rs l = (rs, l) := by
  intro l
  induction l with
  | nil => intro rs h; rfl
  | cons r rest ih =>
    intro rs h
    have hdef : processDefMonth co today now ym rs r = (rs, r) := by
      unfold processDefMonth
      split_ifs with ha
      · exact foldl_processCandidate_skip co today now _ rs r
          (h r (List.mem_cons_self _ _) ha)
      · rfl
    simp only [processMonth, hdef]
    rw [ih rs (fun r' hr' => h r' (List.mem_cons_of_mem _ hr'))]

theorem months_foldl_skip (co : TaskInstance → Bool) (today : Date)
    (now : Nat) (ms : List (Nat × Nat)) :
    ∀ (rs : RunState) (l : List RecurringTask),
      (∀ r ∈ l, windowDone today rs.store ms r) →
      ms.foldl (fun a ym => processMonth co today now ym a.1 a.2) (rs, l) =
        (rs, l) := by
  induction ms with
  | nil => intro rs l h; rfl
  | cons ym ms ih =>
    intro rs l h
    rw [List.foldl_cons]
    have hm : processMonth co today now ym rs l = (rs, l) :=
      processMonth_skip co today now ym l rs
        (fun r hr hact d hd => h r hr hact ym (List.mem_cons_self _ _) d hd)
    rw [hm]
    exact ih rs l (fun r hr hact ym' hym' d hd =>
      h r hr hact ym' (List.mem_cons_of_mem _ hym') d hd)

/-- C3: the reconciler is idempotent.  Whatever the definition list,
`today`, the id/clock seeds and the creation outcomes of either run, a
second run started from the state the first run produced constructs zero
new task instances. -/
theorem reconcile_idempotent (co₁ co₂ : TaskInstance → Bool) (today : Date)
    (now₁ now₂ nid₁ nid₂ : Nat) (st : ReconcileState) :
    (generateRecurringTasks co₂ today now₂ nid₂
      (generateRecurringTasks co₁ today now₁ nid₁ st).state).created = [] := by
  simp only [generateRecurringTasks]
  obtain ⟨hmono, hf⟩ := months_foldl_invariant co₁ today now₁
    (monthsWindow today)
    ({ store := st.tasks, nextId := nid₁, created := [], failures := [] },
      st.recurring)
  set out := (monthsWindow today).foldl
    (fun a ym => processMonth co₁ today now₁ ym a.1 a.2)
    ({ store := st.tasks, nextId := nid₁, created := [], failures := [] },
      st.recurring) with hout
  have hdone : ∀ r' ∈ out.2,
      windowDone today out.1.store (monthsWindow today) r' := by
    intro r' hr'
    obtain ⟨r, hr, hrel⟩ := forall2_mem_right hf r' hr'
    intro hact ym hym d hd
    have hfreq : r'.frequency = r.frequency := hrel.1.2.2.2.2.1
    have hactiv : r'.active = r.active := hrel.1.2.2.2.2.2.1
    exact hrel.2 (by rw [← hactiv]; exact hact) ym hym d
      (by rw [hfreq] at hd; exact hd)
  have hskip := months_foldl_skip co₂ today now₂ (monthsWindow today)
    { store := out.1.store, nextId := nid₂, created := [], failures := [] }
    out.2 (fun r hr => hdone r hr)
  rw [hskip]

/-! ## C10: blank titles are rejected -/

/-- C10: submitting the add-recurring-task form with a title that trims to
the empty string returns before touching anything: the definition list and
task cache are unchanged and no instance is created. -/
theorem add_blank_title_noop (createOk : TaskInstance → Bool) (today : Date)
    (now nextId : Nat) (rawTitle status frequency ctx : String)
    (newDefId : Nat) (st : ReconcileState)
    (h : jsTrim rawTitle = "") :
    addRecurringTask createOk today now nextId rawTitle status frequency ctx
      newDefId st = (st, []) := by
  unfold addRecurringTask
  simp [h]

/-- Witness for C10 at a whitespace-only title. -/
theorem add_blank_title_noop_witness :
    jsTrim "   " = "" ∧
    addRecurringTask (fun _ => true) ⟨2025, 6, 15⟩ 0 0 "   " "today"
      "everyday" "work" 99 { tasks := [], recurring := [] } =
      ({ tasks := [], recurring := [] }, []) :=
  ⟨by decide,
    add_blank_title_noop (fun _ => true) ⟨2025, 6, 15⟩ 0 0 "   " "today"
      "everyday" "work" 99 { tasks := [], recurring := [] } (by decide)⟩

end TodoApp
